import Mathlib

/-!
Shallow embedding of `model/utils.py` (UIS-RNN training utilities) and
verification of the specification's claims about it.

Modelling conventions:
* numpy / torch tensors of shape (R, D) are `List (List ℚ)` (a list of rows);
  a tensor of shape (T, C, D) is a `List (List (List ℚ))` (time-major).
* float arithmetic is modelled over `ℚ`; an operation whose float result is
  not a real number (division by zero producing NaN/inf) or that raises is
  modelled with `Option` (`none` = no defined numeric result / exception).
* calls to the process-wide random generator are modelled by passing the
  random draws explicitly: `np.random.permutation(k)` becomes a given list
  that is a permutation of `List.range k`, and `np.random.choice(n, k)`
  (with replacement, the numpy default) becomes a given list of `k` raw
  draws, each `< n`; `validDraws` states that side condition.
* Python strings are `List Char`; the file system is a map from file names
  to contents.
-/

/-! ## weighted_mse_loss (utils.py lines 21-43) -/

/-- Elementwise squared error `(input_tensor - target_tensor) ** 2`, with the
leading dimensions flattened into rows of width `observation_dim`
(`.view(-1, observation_dim)`): the tensors are modelled directly in their
flattened row form. -/
def sqErrRows (input_tensor target_tensor : List (List ℚ)) : List (List ℚ) :=
  List.zipWith (fun r s => List.zipWith (fun x y => (x - y) ^ 2) r s)
    input_tensor target_tensor

/-- Total number of scalar entries of a matrix (torch `.nelement()` of a 2-D
tensor). -/
def matNumel (m : List (List ℚ)) : ℕ := (m.map List.length).sum

/-- Sum of all scalar entries of a matrix. -/
def matSum (m : List (List ℚ)) : ℚ := (m.map List.sum).sum

/-- `torch.mean` of a matrix: sum of entries divided by their number. -/
def tmean (m : List (List ℚ)) : ℚ := matSum m / (matNumel m : ℚ)

/-- `torch.diag(w)`: the square matrix with `w` on the diagonal. -/
def diagMat (w : List ℚ) : List (List ℚ) :=
  (List.range w.length).map fun i =>
    (List.range w.length).map fun j => if i = j then w.getD i 0 else 0

/-- `torch.mm`: matrix product; entry `(i, j)` is `Σ_k A[i,k] * B[k,j]`. -/
def matMul (a b : List (List ℚ)) : List (List ℚ) :=
  a.map fun row =>
    (List.range (b.headD []).length).map fun j =>
      ((List.range b.length).map fun k =>
        row.getD k 0 * (b.getD k []).getD j 0).sum

/-- `weighted_mse_loss(input_tensor, target_tensor, weight)` with a tensor
`weight`, following utils.py lines 34-43.  `streched_tensor` is the squared
error in row form, `entry_num` its row count, `non_zero_entry_num` the number
of rows whose first column is non-zero, and the result is
`mean(streched · diag(weight)) * weight.nelement() * entry_num /
non_zero_entry_num`.  When `non_zero_entry_num = 0` the float division has no
numeric value (NaN), modelled as `none`. -/
def weighted_mse_loss (input_tensor target_tensor : List (List ℚ))
    (weight : List ℚ) : Option ℚ :=
  let streched_tensor := sqErrRows input_tensor target_tensor
  let entry_num : ℕ := streched_tensor.length
  let non_zero_entry_num : ℕ :=
    streched_tensor.countP fun r => decide (r.getD 0 0 ≠ 0)
  let weighted_tensor := matMul streched_tensor (diagMat weight)
  if non_zero_entry_num = 0 then none
  else some (tmean weighted_tensor * (weight.length : ℚ) * (entry_num : ℚ) /
    (non_zero_entry_num : ℚ))

/-- The spec's description of the same computation (spec §4.1): count the
rows of the squared-error matrix whose first column is non-zero, scale each
output dimension of the squared-error matrix independently by the weight
(column `j` multiplied by `weight[j]`), and return
`mean * total_weight_elements * entry_num / non_zero_entry_num`, undefined
when `non_zero_entry_num` is zero. -/
def weightedLossSpec (input_tensor target_tensor : List (List ℚ))
    (weight : List ℚ) : Option ℚ :=
  let sq := sqErrRows input_tensor target_tensor
  let non_zero_entry_num : ℕ := sq.countP fun r => decide (r.getD 0 0 ≠ 0)
  let weighted := sq.map fun r => List.zipWith (· * ·) r weight
  if non_zero_entry_num = 0 then none
  else some (tmean weighted * (weight.length : ℚ) * (sq.length : ℚ) /
    (non_zero_entry_num : ℚ))

/-- A Python value passed as the `weight` argument: the declared default is
the plain integer `1`; normal callers pass a tensor. -/
inductive PyWeight : Type
  | int : ℤ → PyWeight
  | tensor : List ℚ → PyWeight

/-- Attribute lookup `weight.float()`: defined on tensors only; on a plain
integer it raises `AttributeError` (modelled as `none`). -/
def pyFloat : PyWeight → Option (List ℚ)
  | PyWeight.int _ => none
  | PyWeight.tensor w => some w

/-- `weighted_mse_loss` as called through Python's dynamic dispatch: the
body unconditionally evaluates `weight.float()` (line 41), so an integer
`weight` — in particular the default `weight=1` — raises before any loss is
computed. -/
def weighted_mse_loss_py (input_tensor target_tensor : List (List ℚ))
    (weight : PyWeight) : Option ℚ :=
  match pyFloat weight with
  | none => none
  | some w => weighted_mse_loss input_tensor target_tensor w

/-! ## sample_permuted_segments (utils.py lines 46-87) -/

/-- Python slice `a[i:j]`. -/
def pySlice (a : List ℕ) (i j : ℕ) : List ℕ := (a.drop i).take (j - i)

/-- Body of one iteration of the segmentation loop, without the final-index
flush: `if index_sequence[i+1] != index_sequence[i] + 1:` append
`index_sequence[prev:(i+1)]` and set `prev = i + 1`.  The state is the pair
(segments so far, `prev`). -/
def breakUpd (a : List ℕ) (st : List (List ℕ) × ℕ) (i : ℕ) :
    List (List ℕ) × ℕ :=
  if a.getD (i + 1) 0 ≠ a.getD i 0 + 1 then
    (st.1 ++ [pySlice a st.2 (i + 1)], i + 1)
  else st

/-- One full iteration of the segmentation loop: the break test followed by
`if i + 1 == len(index_sequence) - 1:` append `index_sequence[prev:]`. -/
def segStep (a : List ℕ) (st : List (List ℕ) × ℕ) (i : ℕ) :
    List (List ℕ) × ℕ :=
  let st1 := breakUpd a st i
  if i + 1 = a.length - 1 then (st1.1 ++ [a.drop st1.2], st1.2) else st1

/-- The `segments` list computed by `sample_permuted_segments` (lines 68-78):
a single-element input is its own single segment, otherwise the loop over
`range(len(index_sequence) - 1)` starting from `segments = [], prev = 0`. -/
def segmentsOf (a : List ℕ) : List (List ℕ) :=
  if a.length = 1 then [a]
  else ((List.range (a.length - 1)).foldl (segStep a) ([], 0)).1

/-- `sample_permuted_segments(index_sequence, number_samples)` (lines 80-87)
with the random draws passed explicitly: `perms` is the list of results of
the `number_samples` calls of `np.random.permutation(len(segments))`; for
each draw the segments are concatenated in the drawn order. -/
def sample_permuted_segments (index_sequence : List ℕ)
    (perms : List (List ℕ)) : List (List ℕ) :=
  perms.map fun p =>
    (p.map fun i => (segmentsOf index_sequence).getD i []).flatten

/-- What it means for `segs` to be the decomposition of `a` into maximal
contiguous runs: the segments concatenate back to `a`, are non-empty, each
is a run of consecutive integers, and no two adjacent segments chain into a
longer run (maximality). -/
def isRunDecomp (a : List ℕ) (segs : List (List ℕ)) : Prop :=
  segs.flatten = a ∧ (∀ s ∈ segs, s ≠ []) ∧
  (∀ s ∈ segs, List.Chain' (fun x y => y = x + 1) s) ∧
  List.Chain' (fun s t => ∀ x y,
    s.getLast? = some x → t.head? = some y → y ≠ x + 1) segs

/-! ## resize_sequence (utils.py lines 90-126) -/

/-- `np.unique(cluster_id)`: the distinct labels in ascending order. -/
def uniqueId (cluster_id : List ℤ) : List ℤ :=
  List.insertionSort (· ≤ ·) cluster_id.dedup

/-- `np.where(cluster_id == i)[0]`: the positions (ascending) whose label
equals `i`. -/
def labelIdx (cluster_id : List ℤ) (i : ℤ) : List ℕ :=
  (List.range cluster_id.length).filter fun j => decide (cluster_id.getD j 0 = i)

/-- Row gather `sequence[idx_set, :]`. -/
def gatherRows (sequence : List (List ℚ)) (idx : List ℕ) : List (List ℚ) :=
  idx.map fun j => sequence.getD j []

/-- The `transit_num` accumulation of utils.py lines 122-124: a fold over
`range(len(cluster_id) - 1)` adding 1 whenever adjacent labels differ. -/
def transitNum (cluster_id : List ℤ) : ℕ :=
  (List.range (cluster_id.length - 1)).foldl
    (fun acc entry =>
      acc + if cluster_id.getD entry 0 ≠ cluster_id.getD (entry + 1) 0
            then 1 else 0) 0

/-- `resize_sequence(sequence, cluster_id, num_permutations)` (lines 90-126).
`rand i` supplies, for cluster label `i`, the permutation draws consumed by
the internal `sample_permuted_segments` call.  The Python guard
`if num_permutations and num_permutations > 1` is truthy exactly when
`num_permutations` is present and `> 1`.  Returns
(sub_sequences, seq_lengths, bias). -/
def resize_sequence (sequence : List (List ℚ)) (cluster_id : List ℤ)
    (num_permutations : Option ℕ) (rand : ℤ → List (List ℕ)) :
    List (List (List ℚ)) × List ℕ × ℚ :=
  let uid := uniqueId cluster_id
  let permuting : Bool := match num_permutations with
    | some k => decide (1 < k)
    | none => false
  let sub_sequences : List (List (List ℚ)) :=
    if permuting then
      (uid.map fun i =>
        let idx_set := labelIdx cluster_id i
        let sampled := sample_permuted_segments idx_set (rand i)
        (List.range (num_permutations.getD 0)).map fun j =>
          gatherRows sequence (sampled.getD j [])).flatten
    else uid.map fun i => gatherRows sequence (labelIdx cluster_id i)
  let seq_lengths : List ℕ :=
    if permuting then
      (uid.map fun i =>
        List.replicate (num_permutations.getD 0)
          ((labelIdx cluster_id i).length + 1)).flatten
    else uid.map fun i => (labelIdx cluster_id i).length + 1
  let bias : ℚ := ((transitNum cluster_id : ℚ) + 1) / (cluster_id.length : ℚ)
  (sub_sequences, seq_lengths, bias)

/-! ## pack_sequence (utils.py lines 129-174) -/

/-- Side condition on the raw draws handed to `np.random.choice(n, k)` with
replacement (the numpy default): `k` independent uniform draws, each `< n`.
Nothing forces distinct draws. -/
def validDraws (n k : ℕ) (draws : List ℕ) : Prop :=
  draws.length = k ∧ ∀ d ∈ draws, d < n

/-- `np.random.choice(num_clusters, batch_size)` with replacement: it raises
only when the population is empty and at least one sample is requested;
otherwise it returns the draws. -/
def npChoice (num_clusters batch_size : ℕ) (draws : List ℕ) :
    Option (List ℕ) :=
  if num_clusters = 0 ∧ 0 < batch_size then none else some draws

/-- `np.sort(seq_lengths)[::-1]`: lengths in descending order. -/
def sortedSeqLengths (seq_lengths : List ℕ) : List ℕ :=
  (List.insertionSort (· ≤ ·) seq_lengths).reverse

/-- `np.argsort(seq_lengths)[::-1]`: positions of `seq_lengths` arranged so
that the corresponding lengths are descending. -/
def permuteIndex (seq_lengths : List ℕ) : List ℕ :=
  (List.insertionSort
      (fun i j => seq_lengths.getD i 0 ≤ seq_lengths.getD j 0)
      (List.range seq_lengths.length)).reverse

/-- `np.sort(np.random.choice(num_clusters, batch_size))`: the sampled
indices sorted ascending. -/
def miniBatchOf (draws : List ℕ) : List ℕ := List.insertionSort (· ≤ ·) draws

/-- The padded rnn input tensor, time-major.  Column `i` (one per active
index) holds the sub-sequence `sub_sequences[permute_index[col i]]` in rows
`1 .. sorted_seq_lengths[col i] - 1` and zero vectors elsewhere; row 0 of
every column is the all-zero start symbol.  This is the net effect of the
slice assignments `rnn_input[1:sorted_seq_lengths[..], i, :] = ...` on the
zero tensor, whose source block has exactly `sorted_seq_lengths[..] - 1`
rows of width `observation_dim`. -/
def rnnInputTensor (sub_sequences : List (List (List ℚ)))
    (seq_lengths : List ℕ) (observation_dim : ℕ) (cols : List ℕ)
    (timeLen : ℕ) : List (List (List ℚ)) :=
  (List.range timeLen).map fun t =>
    cols.map fun c =>
      if 1 ≤ t ∧ t < (sortedSeqLengths seq_lengths).getD c 0 then
        (sub_sequences.getD ((permuteIndex seq_lengths).getD c 0) []).getD
          (t - 1) []
      else List.replicate observation_dim 0

/-- `pack_sequence(sub_sequences, seq_lengths, batch_size, observation_dim,
device)` (lines 129-174), with the raw `np.random.choice` draws passed
explicitly (`draws` is unused in full-batch mode).  The packed sequence is
modelled as the pair (padded tensor, per-column valid lengths) handed to
`pack_padded_sequence`; the result is `some (packed_rnn_input, rnn_truth)`
with `rnn_truth = rnn_input[1:]`, or `none` when the call raises: when the
sampling step fails, when the empty mini-batch is indexed at
`sorted_seq_lengths[mini_batch[0]]` (line 162, `IndexError` for
`batch_size = 0`), or when `sorted_seq_lengths[0]` is taken on an empty
`seq_lengths` in full-batch mode (line 151). -/
def pack_sequence (sub_sequences : List (List (List ℚ)))
    (seq_lengths : List ℕ) (batch_size : Option ℕ) (observation_dim : ℕ)
    (draws : List ℕ) :
    Option ((List (List (List ℚ)) × List ℕ) × List (List (List ℚ))) :=
  let num_clusters := seq_lengths.length
  match batch_size with
  | none =>
      if seq_lengths = [] then none
      else
        let rnn_input := rnnInputTensor sub_sequences seq_lengths
          observation_dim (List.range num_clusters)
          ((sortedSeqLengths seq_lengths).getD 0 0)
        some ((rnn_input, sortedSeqLengths seq_lengths), rnn_input.drop 1)
  | some bs =>
      match npChoice num_clusters bs draws with
      | none => none
      | some ds =>
          let mini_batch := miniBatchOf ds
          if mini_batch = [] then none
          else
            let rnn_input := rnnInputTensor sub_sequences seq_lengths
              observation_dim mini_batch
              ((sortedSeqLengths seq_lengths).getD (mini_batch.getD 0 0) 0)
            some ((rnn_input,
              mini_batch.map fun c =>
                (sortedSeqLengths seq_lengths).getD c 0),
              rnn_input.drop 1)

/-! ## output_result (utils.py lines 177-210) -/

/-- Python strings are modelled as lists of characters. -/
abbrev PyStr := List Char

/-- The file system: a map from file names to current contents; a file that
was never written has empty contents, so writing in mode `'a'` creates it. -/
abbrev FileSys := PyStr → PyStr

/-- Appending `s` to the file `name` (mode `'a'`: create if absent, else
append). -/
def fsAppend (fs : FileSys) (name s : PyStr) : FileSys :=
  fun n => if n = name then fs name ++ s else fs n

/-- `model_args` fields consumed by `output_result`.  `crp_alpha` is kept in
its `str()` rendering; the numeric fields used in the file name keep their
types. -/
structure ModelArgs : Type where
  crp_alpha : PyStr
  rnn_hidden_size : ℤ
  rnn_depth : ℤ
  rnn_dropout : ℚ

/-- `training_args` fields consumed by `output_result`, each in its `str()`
rendering (they are only interpolated into `{}` placeholders). -/
structure TrainingArgs : Type where
  sigma_alpha : PyStr
  sigma_beta : PyStr
  learning_rate : PyStr
  learning_rate_half_life : PyStr
  regularization_weight : PyStr
  batch_size : PyStr

/-- `str()` of a Python integer. -/
def intStr (z : ℤ) : PyStr := (toString z).toList

/-- The 80-character `=` rule. -/
def eqRule : PyStr := List.replicate 80 '='

/-- The file name `'layer_{}_{}_{:.1f}_result.txt'.format(rnn_hidden_size,
rnn_depth, rnn_dropout)` (lines 205-207); `render p q` is the fixed-point
rendering `'{:.pf}'.format(q)` of the float layer, passed as a parameter. -/
def resultFilename (model_args : ModelArgs) (render : ℕ → ℚ → PyStr) : PyStr :=
  "layer_".toList ++ intStr model_args.rnn_hidden_size ++ "_".toList ++
    intStr model_args.rnn_depth ++ "_".toList ++
    render 1 model_args.rnn_dropout ++ "_result.txt".toList

/-- The template of lines 180-193 after `.strip()`, with the seven `{}`
placeholders and the `{:.6f}` placeholder filled in. -/
def configBlock (model_args : ModelArgs) (training_args : TrainingArgs)
    (render : ℕ → ℚ → PyStr) (total_accuracy : ℚ) : PyStr :=
  "Config:\n  sigma_alpha: ".toList ++ training_args.sigma_alpha ++
  "\n  sigma_beta: ".toList ++ training_args.sigma_beta ++
  "\n  crp_alpha: ".toList ++ model_args.crp_alpha ++
  "\n  learning rate: ".toList ++ training_args.learning_rate ++
  "\n  learning rate half life: ".toList ++
    training_args.learning_rate_half_life ++
  "\n  regularization: ".toList ++ training_args.regularization_weight ++
  "\n  batch size: ".toList ++ training_args.batch_size ++
  "\n\nPerformance:\n  averaged accuracy: ".toList ++
    render 6 total_accuracy ++
  "\n  accuracy numbers for all testing sequences:".toList

/-- `output_result(model_args, training_args, test_record)` (lines 177-210).
`test_record` is a list of (accuracy, extra) pairs; `zip(*test_record)`
raises on an empty record (`none`).  `np.mean` is sum / count.  Returns the
formatted string together with the file system after the append. -/
def output_result (model_args : ModelArgs) (training_args : TrainingArgs)
    (test_record : List (ℚ × ℚ)) (render : ℕ → ℚ → PyStr) (fs : FileSys) :
    Option (PyStr × FileSys) :=
  if test_record = [] then none
  else
    let accuracy_array := test_record.map Prod.fst
    let total_accuracy : ℚ :=
      accuracy_array.sum / (accuracy_array.length : ℚ)
    let output_string :=
      accuracy_array.foldl
        (fun s accuracy => s ++ "\n    ".toList ++ render 6 accuracy)
        (configBlock model_args training_args render total_accuracy)
    let output_string := output_string ++ "\n".toList ++ eqRule ++ "\n".toList
    let filename := resultFilename model_args render
    some (output_string, fsAppend fs filename output_string)

/-! ## Derived definitions used in the claim statements -/

/-- The spec's "number of adjacent positions in `cluster_id` where the label
changes": pairs of neighbouring entries that differ. -/
def changeCount (cluster_id : List ℤ) : ℕ :=
  (cluster_id.zip cluster_id.tail).countP fun p => decide (p.1 ≠ p.2)

/-- The segmentation loop of `sample_permuted_segments` after `m` of its
`len(index_sequence) - 1` iterations. -/
def segLoop (a : List ℕ) (m : ℕ) : List (List ℕ) × ℕ :=
  (List.range m).foldl (segStep a) ([], 0)

/-- Loop invariant of the segmentation loop, before the final-index flush:
after `m` iterations with state `st = (segments, prev)`, the segments
collected so far concatenate to `a[0:prev]`, are non-empty maximal
consecutive runs, `prev` sits at a break (or at 0), and no break has been
seen between `prev` and `m`. -/
structure SegInv (a : List ℕ) (m : ℕ) (st : List (List ℕ) × ℕ) : Prop where
  prev_le : st.2 ≤ m
  join_eq : st.1.flatten = a.take st.2
  seg_ne : ∀ s ∈ st.1, s ≠ []
  consec : ∀ s ∈ st.1, List.Chain' (fun x y => y = x + 1) s
  maximal : List.Chain' (fun s t => ∀ x y,
    s.getLast? = some x → t.head? = some y → y ≠ x + 1) st.1
  boundary : st.1 ≠ [] → 0 < st.2 ∧
    a.getD st.2 0 ≠ a.getD (st.2 - 1) 0 + 1 ∧
    (st.1.getLastD []).getLast? = some (a.getD (st.2 - 1) 0)
  open_run : ∀ j, st.2 ≤ j → j + 1 ≤ m → a.getD (j + 1) 0 = a.getD j 0 + 1

/-- The spec's description of the result string (§4.5): the config block,
one indented line per accuracy value, and the closing rule of 80 `=`. -/
def outputStringSpec (model_args : ModelArgs) (training_args : TrainingArgs)
    (accs : List ℚ) (render : ℕ → ℚ → PyStr) : PyStr :=
  configBlock model_args training_args render (accs.sum / (accs.length : ℚ)) ++
    (accs.map fun a => "\n    ".toList ++ render 6 a).flatten ++
    "\n".toList ++ eqRule ++ "\n".toList

/-!
# Theorems

General-purpose lemmas first, then the per-claim theorems.
-/

theorem getD_map_range {α : Type} (l : List α) (d : α) :
    (List.range l.length).map (fun i => l.getD i d) = l := by
  induction l with
  | nil => rfl
  | cons x xs ih =>
      rw [List.length_cons, List.range_succ_eq_map, List.map_cons,
        List.map_map]
      simp only [List.getD_cons_zero, Function.comp_def, List.getD_cons_succ]
      exact congrArg (x :: ·) ih

theorem getD_map_range_lt {α : Type} {n k : ℕ} (f : ℕ → α) (d : α)
    (hk : k < n) : ((List.range n).map f).getD k d = f k := by
  rw [List.getD_eq_getElem _ _ (by simpa using hk), List.getElem_map,
    List.getElem_range]

theorem zipWith_eq_map_range {α β γ : Type} (f : α → β → γ) (d₁ : α) (d₂ : β)
    (l₁ : List α) (l₂ : List β) (h : l₁.length = l₂.length) :
    List.zipWith f l₁ l₂ =
      (List.range l₁.length).map (fun i => f (l₁.getD i d₁) (l₂.getD i d₂)) := by
  induction l₁ generalizing l₂ with
  | nil => simp
  | cons x xs ih =>
      cases l₂ with
      | nil => simp at h
      | cons y ys =>
          rw [List.zipWith_cons_cons, List.length_cons,
            List.range_succ_eq_map, List.map_cons, List.map_map]
          simp only [List.getD_cons_zero, Function.comp_def,
            List.getD_cons_succ]
          exact congrArg ((f x y) :: ·) (ih ys (by simpa using h))

theorem sum_map_range_ite {M : Type} [AddCommMonoid M] (n j : ℕ) (hj : j < n)
    (f : ℕ → M) :
    ((List.range n).map fun k => if k = j then f k else 0).sum = f j := by
  induction n with
  | zero => omega
  | succ m ih =>
      rw [List.range_succ, List.map_append, List.sum_append]
      rcases Nat.lt_or_ge j m with hlt | hge
      · rw [ih hlt]
        simp [Nat.ne_of_gt hlt]
      · have hjm : j = m := by omega
        subst hjm
        have : ((List.range j).map fun k => if k = j then f k else 0).sum
            = (0 : M) := by
          apply List.sum_eq_zero
          intro x hx
          rcases List.mem_map.mp hx with ⟨k, hk, hkx⟩
          have : k ≠ j := Nat.ne_of_lt (List.mem_range.mp hk)
          simpa [this] using hkx.symm
        simp [this]

theorem getD_nonneg (l : List ℚ) (h : ∀ x ∈ l, 0 ≤ x) (k : ℕ) :
    0 ≤ l.getD k 0 := by
  rcases Nat.lt_or_ge k l.length with hk | hk
  · rw [List.getD_eq_getElem _ _ hk]
    exact h _ (List.getElem_mem hk)
  · rw [List.getD_eq_default _ _ hk]

theorem forall_mem_zipWith {α β γ : Type} {f : α → β → γ} {P : γ → Prop}
    (hf : ∀ a b, P (f a b)) :
    ∀ (l : List α) (m : List β), ∀ x ∈ List.zipWith f l m, P x := by
  intro l
  induction l with
  | nil => intro m x hx; simp at hx
  | cons a l ih =>
      intro m x hx
      cases m with
      | nil => simp at hx
      | cons b m =>
          rw [List.zipWith_cons_cons, List.mem_cons] at hx
          rcases hx with hx | hx
          · exact hx ▸ hf a b
          · exact ih m x hx

theorem sum_map_ite_nodup {α : Type} [DecidableEq α] (l : List α)
    (hl : l.Nodup) (a : α) (c : ℕ) :
    (l.map fun i => if a = i then c else 0).sum = if a ∈ l then c else 0 := by
  induction l with
  | nil => simp
  | cons x xs ih =>
      rw [List.nodup_cons] at hl
      rw [List.map_cons, List.sum_cons, ih hl.2]
      by_cases hax : a = x
      · subst hax
        simp [hl.1]
      · simp [hax]

theorem count_filter_eq {α : Type} [DecidableEq α] (p : α → Bool)
    (l : List α) (a : α) :
    (l.filter p).count a = if p a then l.count a else 0 := by
  by_cases hp : p a
  · rw [if_pos hp, List.count_filter hp]
  · rw [if_neg hp, List.count_eq_zero]
    intro hmem
    exact hp (List.of_mem_filter hmem)

theorem foldl_add_ite {α : Type} (P : α → Prop) [DecidablePred P]
    (l : List α) (c : ℕ) :
    l.foldl (fun acc x => acc + if P x then 1 else 0) c =
      c + l.countP (fun x => decide (P x)) := by
  induction l generalizing c with
  | nil => simp
  | cons x xs ih =>
      rw [List.foldl_cons, ih, List.countP_cons]
      by_cases hx : P x <;> simp [hx] <;> omega

theorem foldl_append_join {α β : Type} (pre : List β) (g : α → List β)
    (l : List α) (s : List β) :
    l.foldl (fun acc a => acc ++ pre ++ g a) s =
      s ++ (l.map fun a => pre ++ g a).flatten := by
  induction l generalizing s with
  | nil => simp
  | cons x xs ih => rw [List.foldl_cons, ih]; simp

theorem diagMat_headD_length (w : List ℚ) :
    ((diagMat w).headD []).length = w.length := by
  unfold diagMat
  cases hw : w.length with
  | zero => simp
  | succ m =>
      rw [List.range_succ_eq_map]
      simp

theorem diagMat_getD (w : List ℚ) {k j : ℕ} (hk : k < w.length)
    (hj : j < w.length) :
    ((diagMat w).getD k []).getD j 0 = if k = j then w.getD k 0 else 0 := by
  unfold diagMat
  rw [getD_map_range_lt _ _ hk, getD_map_range_lt _ _ hj]

theorem matMul_diag (w : List ℚ) (m : List (List ℚ))
    (h : ∀ r ∈ m, r.length = w.length) :
    matMul m (diagMat w) = m.map fun r => List.zipWith (· * ·) r w := by
  unfold matMul
  apply List.map_congr_left
  intro r hr
  rw [diagMat_headD_length]
  have hlen : (diagMat w).length = w.length := by
    unfold diagMat; simp
  rw [zipWith_eq_map_range (· * ·) 0 0 r w (h r hr), h r hr]
  apply List.map_congr_left
  intro j hj
  rw [List.mem_range] at hj
  have hsummand : ∀ k ∈ List.range (diagMat w).length,
      r.getD k 0 * ((diagMat w).getD k []).getD j 0 =
        if k = j then r.getD j 0 * w.getD j 0 else 0 := by
    intro k hk
    rw [List.mem_range, hlen] at hk
    rw [diagMat_getD w hk hj]
    by_cases hkj : k = j
    · subst hkj; simp
    · simp [hkj]
  rw [List.map_congr_left hsummand, hlen, sum_map_range_ite _ _ hj]

/-- Claim C5: `weighted_mse_loss` counts `non_zero_entry_num` as the rows of
the flattened squared-error matrix whose first column is non-zero and
returns `mean(weighted_matrix) * weight.nelement() * entry_num /
non_zero_entry_num`, where the weighted matrix scales column `j` of the
squared-error matrix by `weight[j]`; when `non_zero_entry_num` is zero the
result is undefined. -/
theorem weighted_mse_loss_eq_spec (input_tensor target_tensor : List (List ℚ))
    (weight : List ℚ)
    (hin : ∀ r ∈ input_tensor, r.length = weight.length)
    (htg : ∀ r ∈ target_tensor, r.length = weight.length) :
    weighted_mse_loss input_tensor target_tensor weight =
      weightedLossSpec input_tensor target_tensor weight := by
  have hsq : ∀ r ∈ sqErrRows input_tensor target_tensor,
      r.length = weight.length := by
    intro r hr
    unfold sqErrRows at hr
    rcases List.mem_iff_get.mp hr with ⟨i, hi⟩
    have hi1 : (i : ℕ) < input_tensor.length := by
      have := i.isLt
      simp only [List.length_zipWith] at this
      omega
    have hi2 : (i : ℕ) < target_tensor.length := by
      have := i.isLt
      simp only [List.length_zipWith] at this
      omega
    rw [List.get_eq_getElem, List.getElem_zipWith] at hi
    rw [← hi, List.length_zipWith,
      hin _ (List.getElem_mem hi1), htg _ (List.getElem_mem hi2)]
    simp
  unfold weighted_mse_loss weightedLossSpec
  simp only [matMul_diag weight _ hsq]

/-- Witness for C5 at a concrete input. -/
theorem weighted_mse_loss_eq_spec_witness :
    weighted_mse_loss [[1, 2]] [[0, 0]] [2, 3] =
      weightedLossSpec [[1, 2]] [[0, 0]] [2, 3] ∧
    weighted_mse_loss [[1, 2]] [[0, 0]] [2, 3] = some 14 :=
  ⟨weighted_mse_loss_eq_spec [[1, 2]] [[0, 0]] [2, 3]
      (by decide) (by decide),
    by norm_num [weighted_mse_loss, sqErrRows, matMul, diagMat, tmean,
      matSum, matNumel, List.countP_cons, List.range_succ]⟩

/-- Claim C10: the declared default `weight=1` is a plain integer, and the
body unconditionally calls `weight.float()`, which only exists on tensors,
so every invocation relying on the default raises instead of computing a
loss; with a tensor weight the call goes through to the loss computation. -/
theorem weighted_mse_loss_default_raises
    (input_tensor target_tensor : List (List ℚ)) :
    weighted_mse_loss_py input_tensor target_tensor (PyWeight.int 1) = none ∧
    (∀ z : ℤ, weighted_mse_loss_py input_tensor target_tensor
      (PyWeight.int z) = none) ∧
    (∀ w : List ℚ, weighted_mse_loss_py input_tensor target_tensor
      (PyWeight.tensor w) =
        weighted_mse_loss input_tensor target_tensor w) :=
  ⟨rfl, fun _ => rfl, fun _ => rfl⟩

/-- Counterexample for C3 as stated: with the weight tensor `[-1]` (the
claim quantifies over "any weight") and inputs whose squared-error matrix
has `non_zero_entry_num = 1 > 0`, the returned loss is `-1 < 0`. -/
theorem weighted_mse_loss_neg_weight_cex :
    (sqErrRows [[1]] [[0]]).countP (fun r => decide (r.getD 0 0 ≠ 0)) = 1 ∧
    weighted_mse_loss [[1]] [[0]] [-1] = some (-1) ∧
    ¬ (0 : ℚ) ≤ -1 := by
  refine ⟨by norm_num [sqErrRows, List.countP_cons],
    by norm_num [weighted_mse_loss, sqErrRows, matMul, diagMat, tmean,
      matSum, matNumel, List.countP_cons, List.range_succ],
    by norm_num⟩

theorem matMul_diag_entry_nonneg (m : List (List ℚ)) (w : List ℚ)
    (hm : ∀ r ∈ m, ∀ x ∈ r, 0 ≤ x) (hw : ∀ x ∈ w, 0 ≤ x) :
    ∀ r ∈ matMul m (diagMat w), ∀ x ∈ r, 0 ≤ x := by
  intro r hr x hx
  unfold matMul at hr
  rcases List.mem_map.mp hr with ⟨row, hrow, hre⟩
  subst hre
  rcases List.mem_map.mp hx with ⟨j, _, hje⟩
  subst hje
  apply List.sum_nonneg
  intro y hy
  rcases List.mem_map.mp hy with ⟨k, _, hke⟩
  subst hke
  apply mul_nonneg
  · exact getD_nonneg row (hm row hrow) k
  · have hdiag : ∀ dr ∈ diagMat w, ∀ x ∈ dr, 0 ≤ x := by
      intro dr hdr x hxd
      unfold diagMat at hdr
      rcases List.mem_map.mp hdr with ⟨i, _, hie⟩
      subst hie
      rcases List.mem_map.mp hxd with ⟨j', _, hj'e⟩
      subst hj'e
      by_cases hij : i = j'
      · simpa [hij] using getD_nonneg w hw i
      · simp [hij]
    rcases Nat.lt_or_ge k (diagMat w).length with hk | hk
    · rw [List.getD_eq_getElem _ _ hk]
      exact getD_nonneg _ (hdiag _ (List.getElem_mem hk)) j
    · rw [List.getD_eq_default _ _ hk]
      simp

theorem sqErrRows_entry_nonneg (input_tensor target_tensor : List (List ℚ)) :
    ∀ r ∈ sqErrRows input_tensor target_tensor, ∀ x ∈ r, 0 ≤ x := by
  intro r hr
  unfold sqErrRows at hr
  have houter : ∀ (u : List ℚ) (v : List ℚ),
      ∀ x ∈ List.zipWith (fun x y => (x - y) ^ 2) u v, 0 ≤ x := by
    intro u v
    exact forall_mem_zipWith (fun a b => sq_nonneg (a - b)) u v
  exact forall_mem_zipWith
    (f := fun u v => List.zipWith (fun x y => (x - y) ^ 2) u v)
    (P := fun r => ∀ x ∈ r, 0 ≤ x) houter input_tensor target_tensor r hr

theorem matSum_nonneg (m : List (List ℚ)) (h : ∀ r ∈ m, ∀ x ∈ r, 0 ≤ x) :
    0 ≤ matSum m := by
  unfold matSum
  apply List.sum_nonneg
  intro y hy
  rcases List.mem_map.mp hy with ⟨r, hr, hre⟩
  subst hre
  exact List.sum_nonneg (h r hr)

/-- Claim C3, amended: for a weight tensor with entrywise non-negative
entries (the case `weight = 1/sigma^2` the code documents), every defined
value returned by `weighted_mse_loss` is non-negative. -/
theorem weighted_mse_loss_nonneg (input_tensor target_tensor : List (List ℚ))
    (weight : List ℚ) (hw : ∀ x ∈ weight, 0 ≤ x) (r : ℚ)
    (hr : weighted_mse_loss input_tensor target_tensor weight = some r) :
    0 ≤ r := by
  simp only [weighted_mse_loss] at hr
  by_cases hz : (sqErrRows input_tensor target_tensor).countP
      (fun row => decide (row.getD 0 0 ≠ 0)) = 0
  · rw [if_pos hz] at hr
    cases hr
  · rw [if_neg hz, Option.some.injEq] at hr
    subst hr
    apply div_nonneg _ (by positivity)
    apply mul_nonneg _ (by positivity)
    apply mul_nonneg _ (by positivity)
    unfold tmean
    apply div_nonneg _ (by positivity)
    exact matSum_nonneg _
      (matMul_diag_entry_nonneg _ _
        (sqErrRows_entry_nonneg input_tensor target_tensor) hw)

/-- Witness for the amended C3. -/
theorem weighted_mse_loss_nonneg_witness :
    (0 : ℚ) ≤ 14 :=
  weighted_mse_loss_nonneg [[1, 2]] [[0, 0]] [2, 3]
    (by norm_num) 14
    (by norm_num [weighted_mse_loss, sqErrRows, matMul, diagMat, tmean,
      matSum, matNumel, List.countP_cons, List.range_succ])

/-- Counterexample for C1 as stated: the draws `[0, 0]` are a possible
outcome of `np.random.choice(2, 2)` (which samples with replacement, the
numpy default), and the resulting sorted mini-batch index list `[0, 0]` is
not pairwise distinct. -/
theorem miniBatch_not_distinct_cex :
    validDraws 2 2 [0, 0] ∧ miniBatchOf [0, 0] = [0, 0] ∧
    ¬ (miniBatchOf [0, 0]).Nodup :=
  ⟨⟨rfl, by decide⟩, by decide, by decide⟩

/-- Claim C1, amended: in mini-batch mode the active index set is obtained
by sampling `batch_size` indices with replacement (so repeats are possible)
and sorting them ascending before use: the mini-batch list is an
ascending-sorted permutation of the raw draws, has length `batch_size`, and
every entry is a valid sub-sequence index. -/
theorem miniBatch_sorted (n k : ℕ) (draws : List ℕ)
    (h : validDraws n k draws) :
    (miniBatchOf draws).Sorted (· ≤ ·) ∧
    (miniBatchOf draws).Perm draws ∧
    (miniBatchOf draws).length = k ∧
    ∀ d ∈ miniBatchOf draws, d < n := by
  unfold miniBatchOf
  refine ⟨List.sorted_insertionSort _ _, List.perm_insertionSort _ _, ?_, ?_⟩
  · rw [(List.perm_insertionSort _ _).length_eq, h.1]
  · intro d hd
    exact h.2 d ((List.perm_insertionSort _ _).mem_iff.mp hd)

/-- Witness for the amended C1. -/
theorem miniBatch_sorted_witness :
    (miniBatchOf [1, 0]).Sorted (· ≤ ·) ∧
    (miniBatchOf [1, 0]).Perm [1, 0] ∧
    (miniBatchOf [1, 0]).length = 2 ∧
    ∀ d ∈ miniBatchOf [1, 0], d < 2 :=
  miniBatch_sorted 2 2 [1, 0] ⟨rfl, by decide⟩

/-- Counterexample for C2 as stated: with a single sub-sequence
(`len(seq_lengths) = 1`) and `batch_size = 2 > 1`, the draws `[0, 0]` are a
possible outcome of `np.random.choice(1, 2)` (sampling with replacement
does not require `batch_size ≤ num_clusters`), and `pack_sequence` returns
a packed batch — with the lone sub-sequence duplicated into both columns —
instead of failing. -/
theorem pack_sequence_oversample_cex :
    ([2] : List ℕ).length < 2 ∧ validDraws 1 2 [0, 0] ∧
    pack_sequence [[[5]]] [2] (some 2) 1 [0, 0] =
      some (([[[0], [0]], [[5], [5]]], [2, 2]), [[[5], [5]]]) := by
  refine ⟨by decide, ⟨rfl, by decide⟩, ?_⟩
  simp [pack_sequence, npChoice, miniBatchOf, rnnInputTensor,
    sortedSeqLengths, permuteIndex, List.insertionSort, List.orderedInsert,
    List.range_succ]

/-- Claim C2, amended: mini-batch `pack_sequence` fails only when there are
no sub-sequences at all (`np.random.choice` with replacement raises only on
an empty population) or when `batch_size = 0` (indexing the empty
mini-batch at `sorted_seq_lengths[mini_batch[0]]` raises `IndexError`);
whenever at least one sub-sequence exists and `batch_size ≥ 1`, mini-batch
packing returns a packed batch, including when
`batch_size > len(seq_lengths)`. -/
theorem pack_sequence_sampling (sub_sequences : List (List (List ℚ)))
    (seq_lengths : List ℕ) (observation_dim batch_size : ℕ)
    (draws : List ℕ) (hne : 1 ≤ seq_lengths.length) (hbs : 1 ≤ batch_size)
    (hd : validDraws seq_lengths.length batch_size draws) :
    (∃ v, pack_sequence sub_sequences seq_lengths (some batch_size)
      observation_dim draws = some v) ∧
    (∀ (subs2 : List (List (List ℚ))) (d2 bs2 : ℕ) (draws2 : List ℕ),
      1 ≤ bs2 →
      pack_sequence subs2 ([] : List ℕ) (some bs2) d2 draws2 = none) ∧
    (∀ (subs2 : List (List (List ℚ))) (lens2 : List ℕ) (d2 : ℕ),
      pack_sequence subs2 lens2 (some 0) d2 [] = none) := by
  refine ⟨?_, ?_, ?_⟩
  · have h0 : npChoice seq_lengths.length batch_size draws = some draws := by
      unfold npChoice
      rw [if_neg (by omega)]
    have h1 : ¬ miniBatchOf draws = [] := by
      intro h2
      have h3 : (miniBatchOf draws).length = batch_size := by
        unfold miniBatchOf
        rw [(List.perm_insertionSort _ _).length_eq, hd.1]
      rw [h2] at h3
      simp at h3
      omega
    simp only [pack_sequence, h0, if_neg h1]
    exact ⟨_, rfl⟩
  · intro subs2 d2 bs2 draws2 hbs2
    have h0 : npChoice ([] : List ℕ).length bs2 draws2 = none := by
      unfold npChoice
      rw [if_pos ⟨by simp, by omega⟩]
    simp only [pack_sequence, h0]
  · intro subs2 lens2 d2
    have h0 : npChoice lens2.length 0 [] = some [] := by
      unfold npChoice
      rw [if_neg (by omega)]
    have h1 : miniBatchOf ([] : List ℕ) = [] := rfl
    simp only [pack_sequence, h0, h1]
    rw [if_pos trivial]

/-- Witness for the amended C2. -/
theorem pack_sequence_sampling_witness :
    (∃ v, pack_sequence [[[5]]] [2] (some 3) 1 [0, 0, 0] = some v) ∧
    (∀ (subs2 : List (List (List ℚ))) (d2 bs2 : ℕ) (draws2 : List ℕ),
      1 ≤ bs2 →
      pack_sequence subs2 ([] : List ℕ) (some bs2) d2 draws2 = none) ∧
    (∀ (subs2 : List (List (List ℚ))) (lens2 : List ℕ) (d2 : ℕ),
      pack_sequence subs2 lens2 (some 0) d2 [] = none) :=
  pack_sequence_sampling [[[5]]] [2] 1 3 [0, 0, 0] (by decide) (by decide)
    ⟨rfl, by decide⟩

theorem zip_tail_map_range : ∀ (cid : List ℤ),
    cid.zip cid.tail =
      (List.range (cid.length - 1)).map
        (fun j => (cid.getD j 0, cid.getD (j + 1) 0))
  | [] => by simp
  | [_] => by simp
  | x :: y :: t => by
      have ih := zip_tail_map_range (y :: t)
      simp only [List.tail_cons] at ih ⊢
      rw [List.zip_cons_cons, ih]
      have hlen : (x :: y :: t).length - 1 = t.length + 1 := by simp
      rw [hlen, List.range_succ_eq_map, List.map_cons, List.map_map]
      simp [Function.comp_def, List.getD_cons_succ, List.getD_cons_zero]

theorem transitNum_eq_changeCount (cid : List ℤ) :
    transitNum cid = changeCount cid := by
  unfold transitNum changeCount
  rw [foldl_add_ite
    (fun entry => cid.getD entry 0 ≠ cid.getD (entry + 1) 0) _ 0]
  rw [zip_tail_map_range, List.countP_map]
  simp [Function.comp_def]

theorem changeCount_le (cid : List ℤ) : changeCount cid ≤ cid.length - 1 := by
  unfold changeCount
  calc (cid.zip cid.tail).countP _ ≤ (cid.zip cid.tail).length :=
        List.countP_le_length _
    _ = cid.length - 1 := by
        rw [List.length_zip, List.length_tail]
        omega

/-- Claim C7: for a non-empty `cluster_id` the bias returned by
`resize_sequence` equals (number of adjacent label changes + 1) divided by
the sequence length, and lies in the interval (0, 1]. -/
theorem resize_sequence_bias (sequence : List (List ℚ)) (cid : List ℤ)
    (num_permutations : Option ℕ) (rand : ℤ → List (List ℕ))
    (h : cid ≠ []) :
    (resize_sequence sequence cid num_permutations rand).2.2 =
      ((changeCount cid : ℚ) + 1) / (cid.length : ℚ) ∧
    0 < (resize_sequence sequence cid num_permutations rand).2.2 ∧
    (resize_sequence sequence cid num_permutations rand).2.2 ≤ 1 := by
  have hL : 0 < cid.length := List.length_pos.mpr h
  have hb : (resize_sequence sequence cid num_permutations rand).2.2 =
      ((transitNum cid : ℚ) + 1) / (cid.length : ℚ) := rfl
  rw [hb, transitNum_eq_changeCount]
  refine ⟨rfl, ?_, ?_⟩
  · apply div_pos (by positivity)
    exact_mod_cast hL
  · rw [div_le_one (by exact_mod_cast hL)]
    have h1 : changeCount cid + 1 ≤ cid.length := by
      have := changeCount_le cid
      omega
    exact_mod_cast h1

/-- Witness for C7. -/
theorem resize_sequence_bias_witness :
    (resize_sequence [[10], [20], [30], [40], [50]] [0, 0, 1, 1, 0] none
      (fun _ => [])).2.2 =
      ((changeCount [0, 0, 1, 1, 0] : ℚ) + 1) / ((5 : ℕ) : ℚ) ∧
    0 < (resize_sequence [[10], [20], [30], [40], [50]] [0, 0, 1, 1, 0] none
      (fun _ => [])).2.2 ∧
    (resize_sequence [[10], [20], [30], [40], [50]] [0, 0, 1, 1, 0] none
      (fun _ => [])).2.2 ≤ 1 :=
  resize_sequence_bias [[10], [20], [30], [40], [50]] [0, 0, 1, 1, 0] none
    (fun _ => []) (by decide)

theorem uniqueId_nodup (cid : List ℤ) : (uniqueId cid).Nodup :=
  ((List.perm_insertionSort _ _).nodup_iff).mpr (List.nodup_dedup cid)

theorem mem_uniqueId {x : ℤ} {cid : List ℤ} :
    x ∈ uniqueId cid ↔ x ∈ cid :=
  (List.perm_insertionSort _ _).mem_iff.trans (List.mem_dedup)

theorem labelIdx_join_perm (cid : List ℤ) :
    ((uniqueId cid).map (labelIdx cid)).flatten.Perm (List.range cid.length) := by
  rw [List.perm_iff_count]
  intro x
  rw [List.count_flatten, List.map_map]
  have hterm : ∀ i ∈ uniqueId cid,
      (List.count x ∘ labelIdx cid) i =
        if cid.getD x 0 = i then (List.range cid.length).count x else 0 := by
    intro i _
    simp only [Function.comp_def, labelIdx]
    rw [count_filter_eq]
    by_cases hx : cid.getD x 0 = i
    · simp [hx]
    · simp [hx]
  rw [List.map_congr_left hterm,
    sum_map_ite_nodup _ (uniqueId_nodup cid) _ _]
  by_cases hx : x < cid.length
  · have hmem : cid.getD x 0 ∈ uniqueId cid := by
      rw [mem_uniqueId, List.getD_eq_getElem _ _ hx]
      exact List.getElem_mem hx
    rw [if_pos hmem]
  · have hc : (List.range cid.length).count x = 0 :=
      List.count_eq_zero_of_not_mem (by simpa using hx)
    rw [hc]
    simp

/-- Claim C6: in the unpermuted mode (`num_permutations` absent or ≤ 1) the
per-label index sets of `resize_sequence`, taken over the ascending distinct
labels, cover every position `0..N-1` exactly once, the emitted
sub-sequences are the corresponding row gathers, and each reported length
is its cluster's size plus one. -/
theorem resize_sequence_regroup (sequence : List (List ℚ)) (cid : List ℤ)
    (num_permutations : Option ℕ) (rand : ℤ → List (List ℕ))
    (hnp : ∀ k, num_permutations = some k → k ≤ 1) :
    ((uniqueId cid).map (labelIdx cid)).flatten.Perm (List.range cid.length) ∧
    (resize_sequence sequence cid num_permutations rand).1 =
      (uniqueId cid).map (fun i => gatherRows sequence (labelIdx cid i)) ∧
    (resize_sequence sequence cid num_permutations rand).2.1 =
      (uniqueId cid).map (fun i => (labelIdx cid i).length + 1) := by
  refine ⟨labelIdx_join_perm cid, ?_, ?_⟩
  all_goals
    cases hnp2 : num_permutations with
    | none => rfl
    | some k =>
        have hk : ¬ 1 < k := Nat.not_lt.mpr (hnp k hnp2)
        simp only [resize_sequence, decide_eq_false hk, Bool.false_eq_true,
          if_false]

/-- Witness for C6. -/
theorem resize_sequence_regroup_witness :
    ((uniqueId [0, 0, 1, 1, 0]).map (labelIdx [0, 0, 1, 1, 0])).flatten.Perm
      (List.range ([0, 0, 1, 1, 0] : List ℤ).length) ∧
    (resize_sequence [[10], [20], [30], [40], [50]] [0, 0, 1, 1, 0] none
      (fun _ => [])).1 =
      (uniqueId [0, 0, 1, 1, 0]).map
        (fun i => gatherRows [[10], [20], [30], [40], [50]]
          (labelIdx [0, 0, 1, 1, 0] i)) ∧
    (resize_sequence [[10], [20], [30], [40], [50]] [0, 0, 1, 1, 0] none
      (fun _ => [])).2.1 =
      (uniqueId [0, 0, 1, 1, 0]).map
        (fun i => (labelIdx [0, 0, 1, 1, 0] i).length + 1) :=
  resize_sequence_regroup [[10], [20], [30], [40], [50]] [0, 0, 1, 1, 0]
    none (fun _ => []) (fun k hk => by cases hk)

theorem sortedSeqLengths_length (seq_lengths : List ℕ) :
    (sortedSeqLengths seq_lengths).length = seq_lengths.length := by
  unfold sortedSeqLengths
  rw [List.length_reverse, List.length_insertionSort]

theorem sortedSeqLengths_getD_mem (seq_lengths : List ℕ) {i : ℕ}
    (hi : i < seq_lengths.length) :
    (sortedSeqLengths seq_lengths).getD i 0 ∈ seq_lengths := by
  have hlen : i < (sortedSeqLengths seq_lengths).length := by
    rw [sortedSeqLengths_length]; exact hi
  rw [List.getD_eq_getElem _ _ hlen]
  have hmem := List.getElem_mem hlen
  unfold sortedSeqLengths at hmem
  rw [List.mem_reverse] at hmem
  exact (List.perm_insertionSort _ _).mem_iff.mp hmem

theorem rnnInputTensor_length (sub_sequences : List (List (List ℚ)))
    (seq_lengths : List ℕ) (observation_dim : ℕ) (cols : List ℕ)
    (timeLen : ℕ) :
    (rnnInputTensor sub_sequences seq_lengths observation_dim cols
      timeLen).length = timeLen := by
  unfold rnnInputTensor
  rw [List.length_map, List.length_range]

theorem rnnInputTensor_row_length (sub_sequences : List (List (List ℚ)))
    (seq_lengths : List ℕ) (observation_dim : ℕ) (cols : List ℕ)
    (timeLen : ℕ) :
    ∀ row ∈ rnnInputTensor sub_sequences seq_lengths observation_dim cols
      timeLen, row.length = cols.length := by
  intro row hrow
  unfold rnnInputTensor at hrow
  rcases List.mem_map.mp hrow with ⟨t, _, hte⟩
  subst hte
  rw [List.length_map]

theorem rnnInputTensor_head (sub_sequences : List (List (List ℚ)))
    (seq_lengths : List ℕ) (observation_dim : ℕ) (cols : List ℕ)
    {timeLen : ℕ} (ht : 1 ≤ timeLen) :
    (rnnInputTensor sub_sequences seq_lengths observation_dim cols
      timeLen).head? =
      some (List.replicate cols.length
        (List.replicate observation_dim 0)) := by
  unfold rnnInputTensor
  obtain ⟨m, hm⟩ : ∃ m, timeLen = m + 1 := ⟨timeLen - 1, by omega⟩
  subst hm
  rw [List.range_succ_eq_map, List.map_cons, List.head?_cons]
  have hz : (cols.map fun c =>
      if 1 ≤ 0 ∧ 0 < (sortedSeqLengths seq_lengths).getD c 0 then
        (sub_sequences.getD ((permuteIndex seq_lengths).getD c 0) []).getD
          (0 - 1) []
      else List.replicate observation_dim (0 : ℚ)) =
      cols.map fun _ => List.replicate observation_dim (0 : ℚ) := by
    apply List.map_congr_left
    intro c _
    rw [if_neg (by omega)]
  rw [hz, List.map_const']

/-- Claim C8: every packed batch has `rnn_truth` one time step shorter than
the padded input (`rnn_truth = rnn_input[1:]`), its column count is the
total number of sub-sequences in full-batch mode and the requested
`batch_size` in mini-batch mode, and row 0 of every column of the padded
input is the all-zero start symbol. -/
theorem pack_sequence_shapes (sub_sequences : List (List (List ℚ)))
    (seq_lengths : List ℕ) (observation_dim batch_size : ℕ)
    (draws : List ℕ) (hne : seq_lengths ≠ [])
    (h1 : ∀ l ∈ seq_lengths, 1 ≤ l)
    (hsubs : sub_sequences.length = seq_lengths.length)
    (hbs : 1 ≤ batch_size)
    (hdr : validDraws seq_lengths.length batch_size draws) :
    (∀ p t, pack_sequence sub_sequences seq_lengths none observation_dim
        draws = some (p, t) →
      t.length = p.1.length - 1 ∧ 1 ≤ p.1.length ∧
      (∀ row ∈ p.1, row.length = sub_sequences.length) ∧
      p.1.head? = some (List.replicate sub_sequences.length
        (List.replicate observation_dim 0))) ∧
    (∀ p t, pack_sequence sub_sequences seq_lengths (some batch_size)
        observation_dim draws = some (p, t) →
      t.length = p.1.length - 1 ∧ 1 ≤ p.1.length ∧
      (∀ row ∈ p.1, row.length = batch_size) ∧
      p.1.head? = some (List.replicate batch_size
        (List.replicate observation_dim 0))) := by
  have hlen0 : 0 < seq_lengths.length := List.length_pos.mpr hne
  constructor
  · intro p t hpt
    simp only [pack_sequence, if_neg hne, Option.some.injEq,
      Prod.mk.injEq] at hpt
    obtain ⟨hp, ht⟩ := hpt
    have hp1 : p.1 = rnnInputTensor sub_sequences seq_lengths
        observation_dim (List.range seq_lengths.length)
        ((sortedSeqLengths seq_lengths).getD 0 0) := by rw [← hp]
    have hT : 1 ≤ (sortedSeqLengths seq_lengths).getD 0 0 :=
      h1 _ (sortedSeqLengths_getD_mem seq_lengths hlen0)
    rw [hp1, ← ht]
    refine ⟨?_, ?_, ?_, ?_⟩
    · rw [List.length_drop]
    · rw [rnnInputTensor_length]; exact hT
    · intro row hrow
      rw [rnnInputTensor_row_length _ _ _ _ _ row hrow,
        List.length_range, hsubs]
    · rw [rnnInputTensor_head _ _ _ _ hT, List.length_range, hsubs]
  · intro p t hpt
    have hmb : npChoice seq_lengths.length batch_size draws = some draws := by
      unfold npChoice
      rw [if_neg (by omega)]
    have hmbne : ¬ miniBatchOf draws = [] := by
      intro h2
      have h3 : (miniBatchOf draws).length = batch_size := by
        unfold miniBatchOf
        rw [(List.perm_insertionSort _ _).length_eq, hdr.1]
      rw [h2] at h3
      simp at h3
      omega
    simp only [pack_sequence, hmb, if_neg hmbne, Option.some.injEq,
      Prod.mk.injEq] at hpt
    obtain ⟨hp, ht⟩ := hpt
    have hp1 : p.1 = rnnInputTensor sub_sequences seq_lengths
        observation_dim (miniBatchOf draws)
        ((sortedSeqLengths seq_lengths).getD
          ((miniBatchOf draws).getD 0 0) 0) := by rw [← hp]
    have hmblen : (miniBatchOf draws).length = batch_size := by
      unfold miniBatchOf
      rw [(List.perm_insertionSort _ _).length_eq, hdr.1]
    have hm0 : (miniBatchOf draws).getD 0 0 < seq_lengths.length := by
      have h0 : 0 < (miniBatchOf draws).length := by omega
      rw [List.getD_eq_getElem _ _ h0]
      apply hdr.2
      have hmem := List.getElem_mem h0
      unfold miniBatchOf at hmem ⊢
      exact (List.perm_insertionSort _ _).mem_iff.mp hmem
    have hT : 1 ≤ (sortedSeqLengths seq_lengths).getD
        ((miniBatchOf draws).getD 0 0) 0 :=
      h1 _ (sortedSeqLengths_getD_mem seq_lengths hm0)
    rw [hp1, ← ht]
    refine ⟨?_, ?_, ?_, ?_⟩
    · rw [List.length_drop]
    · rw [rnnInputTensor_length]; exact hT
    · intro row hrow
      rw [rnnInputTensor_row_length _ _ _ _ _ row hrow, hmblen]
    · rw [rnnInputTensor_head _ _ _ _ hT, hmblen]

/-- Witness for C8. -/
theorem pack_sequence_shapes_witness :
    (∀ p t, pack_sequence [[[5]]] [2] none 1 [0] = some (p, t) →
      t.length = p.1.length - 1 ∧ 1 ≤ p.1.length ∧
      (∀ row ∈ p.1, row.length = ([[[5]]] :
        List (List (List ℚ))).length) ∧
      p.1.head? = some (List.replicate ([[[5]]] :
        List (List (List ℚ))).length (List.replicate 1 0))) ∧
    (∀ p t, pack_sequence [[[5]]] [2] (some 1) 1 [0] = some (p, t) →
      t.length = p.1.length - 1 ∧ 1 ≤ p.1.length ∧
      (∀ row ∈ p.1, row.length = 1) ∧
      p.1.head? = some (List.replicate 1 (List.replicate 1 0))) :=
  pack_sequence_shapes [[[5]]] [2] 1 1 [0] (by decide) (by decide)
    (by decide) (by decide) ⟨rfl, by decide⟩

/-- Claim C9: `output_result` returns exactly the string it appends; the
string is the config block followed by the mean accuracy, one line per
per-sequence accuracy, and a closing line of 80 `=` characters; the target
file is named `layer_<hidden>_<depth>_<dropout:.1f>_result.txt` (a function
of those three fields only) and is opened in append mode (created if
absent, appended otherwise, other files untouched). -/
theorem output_result_spec (model_args : ModelArgs)
    (training_args : TrainingArgs) (test_record : List (ℚ × ℚ))
    (render : ℕ → ℚ → PyStr) (fs : FileSys) (h : test_record ≠ []) :
    output_result model_args training_args test_record render fs =
      some (outputStringSpec model_args training_args
          (test_record.map Prod.fst) render,
        fsAppend fs (resultFilename model_args render)
          (outputStringSpec model_args training_args
            (test_record.map Prod.fst) render)) ∧
    (∃ u, outputStringSpec model_args training_args
        (test_record.map Prod.fst) render =
      u ++ ("\n".toList ++ eqRule ++ "\n".toList)) ∧
    (∀ s, fsAppend fs (resultFilename model_args render) s
        (resultFilename model_args render) =
      fs (resultFilename model_args render) ++ s) ∧
    (∀ s nm, nm ≠ resultFilename model_args render →
      fsAppend fs (resultFilename model_args render) s nm = fs nm) := by
  refine ⟨?_, ?_, ?_, ?_⟩
  · simp only [output_result]
    rw [if_neg h,
      foldl_append_join "\n    ".toList (render 6) (test_record.map Prod.fst)]
    rfl
  · refine ⟨configBlock model_args training_args render
        ((test_record.map Prod.fst).sum /
          ((test_record.map Prod.fst).length : ℚ)) ++
      ((test_record.map Prod.fst).map
        fun a => "\n    ".toList ++ render 6 a).flatten, ?_⟩
    simp [outputStringSpec, List.append_assoc]
  · intro s
    unfold fsAppend
    rw [if_pos rfl]
  · intro s nm hnm
    unfold fsAppend
    rw [if_neg hnm]

/-- Witness for C9. -/
theorem output_result_spec_witness :
    output_result ⟨['a'], 256, 4, 0⟩
        ⟨['b'], ['c'], ['d'], ['e'], ['f'], ['g']⟩ [(1, 0)]
        (fun _ _ => ['x']) (fun _ => []) =
      some (outputStringSpec ⟨['a'], 256, 4, 0⟩
          ⟨['b'], ['c'], ['d'], ['e'], ['f'], ['g']⟩
          ([(1, 0)].map Prod.fst) (fun _ _ => ['x']),
        fsAppend (fun _ => [])
          (resultFilename ⟨['a'], 256, 4, 0⟩ (fun _ _ => ['x']))
          (outputStringSpec ⟨['a'], 256, 4, 0⟩
            ⟨['b'], ['c'], ['d'], ['e'], ['f'], ['g']⟩
            ([(1, 0)].map Prod.fst) (fun _ _ => ['x']))) ∧
    (∃ u, outputStringSpec ⟨['a'], 256, 4, 0⟩
        ⟨['b'], ['c'], ['d'], ['e'], ['f'], ['g']⟩
        ([(1, 0)].map Prod.fst) (fun _ _ => ['x']) =
      u ++ ("\n".toList ++ eqRule ++ "\n".toList)) ∧
    (∀ s, fsAppend (fun _ => [])
        (resultFilename ⟨['a'], 256, 4, 0⟩ (fun _ _ => ['x'])) s
        (resultFilename ⟨['a'], 256, 4, 0⟩ (fun _ _ => ['x'])) =
      (fun _ => ([] : PyStr))
        (resultFilename ⟨['a'], 256, 4, 0⟩ (fun _ _ => ['x'])) ++ s) ∧
    (∀ s nm, nm ≠ resultFilename ⟨['a'], 256, 4, 0⟩ (fun _ _ => ['x']) →
      fsAppend (fun _ => [])
        (resultFilename ⟨['a'], 256, 4, 0⟩ (fun _ _ => ['x'])) s nm =
        (fun _ => ([] : PyStr)) nm) :=
  output_result_spec ⟨['a'], 256, 4, 0⟩
    ⟨['b'], ['c'], ['d'], ['e'], ['f'], ['g']⟩ [(1, 0)]
    (fun _ _ => ['x']) (fun _ => []) (List.cons_ne_nil _ _)

theorem pySlice_length (a : List ℕ) (p q : ℕ) (hq : q ≤ a.length) :
    (pySlice a p q).length = q - p := by
  unfold pySlice
  rw [List.length_take, List.length_drop]
  omega

theorem pySlice_getD (a : List ℕ) {p q i : ℕ} (hq : q ≤ a.length)
    (hi : i < q - p) :
    (pySlice a p q).getD i 0 = a.getD (p + i) 0 := by
  have hlen : i < (pySlice a p q).length := by
    rw [pySlice_length a p q hq]; exact hi
  rw [List.getD_eq_getElem _ _ hlen]
  unfold pySlice
  rw [List.getElem_take, List.getElem_drop]
  rw [List.getD_eq_getElem _ _ (by omega)]

theorem pySlice_head (a : List ℕ) {p q : ℕ} (hpq : p < q)
    (hq : q ≤ a.length) :
    (pySlice a p q).head? = some (a.getD p 0) := by
  have h0 : 0 < (pySlice a p q).length := by
    rw [pySlice_length a p q hq]; omega
  rw [List.head?_eq_getElem?, List.getElem?_eq_getElem h0]
  rw [← List.getD_eq_getElem _ 0 h0, pySlice_getD a hq (by omega)]
  simp

theorem pySlice_getLast (a : List ℕ) {p q : ℕ} (hpq : p < q)
    (hq : q ≤ a.length) :
    (pySlice a p q).getLast? = some (a.getD (q - 1) 0) := by
  have hlen : (pySlice a p q).length = q - p := pySlice_length a p q hq
  have hidx : q - p - 1 < (pySlice a p q).length := by omega
  rw [List.getLast?_eq_getElem?, hlen, List.getElem?_eq_getElem (by omega)]
  rw [← List.getD_eq_getElem _ 0 (by omega), pySlice_getD a hq (by omega)]
  have hidx2 : p + (q - p - 1) = q - 1 := by omega
  rw [hidx2]

theorem chain'_pySlice (a : List ℕ) {p q : ℕ} (hq : q ≤ a.length)
    (hcons : ∀ j, p ≤ j → j + 1 < q → a.getD (j + 1) 0 = a.getD j 0 + 1) :
    List.Chain' (fun x y => y = x + 1) (pySlice a p q) := by
  rw [List.chain'_iff_get]
  intro i hi
  rw [pySlice_length a p q hq] at hi
  rw [List.get_eq_getElem, List.get_eq_getElem]
  rw [← List.getD_eq_getElem _ 0, ← List.getD_eq_getElem _ 0]
  rw [@pySlice_getD a p q i hq (by omega),
    @pySlice_getD a p q (i + 1) hq (by omega)]
  have hidx : p + (i + 1) = (p + i) + 1 := by omega
  rw [hidx]
  exact hcons (p + i) (by omega) (by omega)

theorem drop_eq_pySlice (a : List ℕ) (p : ℕ) :
    a.drop p = pySlice a p a.length := by
  unfold pySlice
  rw [← List.length_drop, List.take_length]

theorem segLoop_succ (a : List ℕ) (m : ℕ) :
    segLoop a (m + 1) = segStep a (segLoop a m) m := by
  unfold segLoop
  rw [List.range_succ, List.foldl_append, List.foldl_cons, List.foldl_nil]

theorem chain'_noMerge_extend (a : List ℕ) (segs : List (List ℕ)) (prev : ℕ)
    (s : List ℕ)
    (hmax : List.Chain' (fun s t => ∀ x y,
      s.getLast? = some x → t.head? = some y → y ≠ x + 1) segs)
    (hbound : segs ≠ [] → 0 < prev ∧
      a.getD prev 0 ≠ a.getD (prev - 1) 0 + 1 ∧
      (segs.getLastD []).getLast? = some (a.getD (prev - 1) 0))
    (hhead : s.head? = some (a.getD prev 0)) :
    List.Chain' (fun s t => ∀ x y,
      s.getLast? = some x → t.head? = some y → y ≠ x + 1) (segs ++ [s]) := by
  rw [List.chain'_append]
  refine ⟨hmax, List.chain'_singleton s, ?_⟩
  intro x hx y hy
  rw [List.head?_cons, Option.mem_def, Option.some.injEq] at hy
  subst hy
  intro u v hu hv
  have hsegs : segs ≠ [] := by
    intro h0
    subst h0
    simp at hx
  obtain ⟨hpos, hbrk, hlast⟩ := hbound hsegs
  rw [Option.mem_def] at hx
  have hxl : segs.getLastD [] = x := by
    rw [List.getLastD_eq_getLast?, hx]
    rfl
  rw [hxl, hu, Option.some.injEq] at hlast
  rw [hhead, Option.some.injEq] at hv
  rw [← hv, hlast]
  exact hbrk

theorem segInv_breakUpd (a : List ℕ) (m : ℕ) (st : List (List ℕ) × ℕ)
    (hm : m + 1 ≤ a.length - 1) (h2 : 2 ≤ a.length)
    (inv : SegInv a m st) : SegInv a (m + 1) (breakUpd a st m) := by
  unfold breakUpd
  by_cases hbr : a.getD (m + 1) 0 ≠ a.getD m 0 + 1
  · rw [if_pos hbr]
    have hq : m + 1 ≤ a.length := by omega
    have hplt : st.2 < m + 1 := by
      have := inv.prev_le
      omega
    have hslice_len : (pySlice a st.2 (m + 1)).length = m + 1 - st.2 :=
      pySlice_length a _ _ hq
    have hslice_ne : pySlice a st.2 (m + 1) ≠ [] := by
      intro h0
      rw [h0] at hslice_len
      simp at hslice_len
      omega
    refine SegInv.mk (le_refl _) ?_ ?_ ?_ ?_ ?_ ?_
    · show (st.1 ++ [pySlice a st.2 (m + 1)]).flatten = a.take (m + 1)
      rw [List.flatten_append, inv.join_eq]
      have hsplit : m + 1 = st.2 + (m + 1 - st.2) := by omega
      rw [hsplit, List.take_add]
      unfold pySlice
      simp
    · intro s hs
      rcases List.mem_append.mp hs with hs | hs
      · exact inv.seg_ne s hs
      · rw [List.mem_singleton] at hs
        subst hs
        exact hslice_ne
    · intro s hs
      rcases List.mem_append.mp hs with hs | hs
      · exact inv.consec s hs
      · rw [List.mem_singleton] at hs
        subst hs
        exact chain'_pySlice a hq (fun j hj hj1 =>
          inv.open_run j hj (by omega))
    · exact chain'_noMerge_extend a st.1 st.2 _ inv.maximal inv.boundary
        (pySlice_head a hplt hq)
    · intro _
      refine ⟨by omega, ?_, ?_⟩
      · show a.getD (m + 1) 0 ≠ a.getD (m + 1 - 1) 0 + 1
        have hm1 : m + 1 - 1 = m := by omega
        rw [hm1]
        exact hbr
      · show ((st.1 ++ [pySlice a st.2 (m + 1)]).getLastD []).getLast? =
          some (a.getD (m + 1 - 1) 0)
        rw [List.getLastD_eq_getLast?, List.getLast?_concat, Option.getD_some]
        exact pySlice_getLast a hplt hq
    · intro j hj hj1
      omega
  · rw [if_neg hbr]
    push_neg at hbr
    refine SegInv.mk (by have := inv.prev_le; omega) inv.join_eq inv.seg_ne
      inv.consec inv.maximal inv.boundary ?_
    intro j hj hj1
    rcases Nat.lt_or_ge (j + 1) (m + 1) with hlt | hge
    · exact inv.open_run j hj (by omega)
    · have hjm : j = m := by omega
      subst hjm
      exact hbr

theorem segInv_loop (a : List ℕ) (h2 : 2 ≤ a.length) :
    ∀ m, m ≤ a.length - 2 → SegInv a m (segLoop a m) := by
  intro m
  induction m with
  | zero =>
      intro _
      refine SegInv.mk (le_refl 0) (by simp [segLoop]) ?_ ?_ ?_ ?_ ?_
      · intro s hs
        simp [segLoop] at hs
      · intro s hs
        simp [segLoop] at hs
      · show List.Chain' _ ([] : List (List ℕ))
        exact List.chain'_nil
      · intro h0
        exact absurd rfl h0
      · intro j hj hj1
        omega
  | succ m ih =>
      intro hm
      rw [segLoop_succ]
      have hstep := segInv_breakUpd a m (segLoop a m) (by omega) h2
        (ih (by omega))
      unfold segStep
      rw [if_neg (by omega : ¬ m + 1 = a.length - 1)]
      exact hstep

theorem segmentsOf_runDecomp (a : List ℕ) (ha : a ≠ []) :
    isRunDecomp a (segmentsOf a) := by
  by_cases h1 : a.length = 1
  · obtain ⟨x, hx⟩ := List.length_eq_one.mp h1
    subst hx
    unfold segmentsOf
    rw [if_pos h1]
    refine ⟨by simp, ?_, ?_, ?_⟩
    · intro s hs
      rw [List.mem_singleton] at hs
      subst hs
      simp
    · intro s hs
      rw [List.mem_singleton] at hs
      subst hs
      exact List.chain'_singleton x
    · exact List.chain'_singleton _
  · have h2 : 2 ≤ a.length := by
      have h0 : a.length ≠ 0 := fun h0 => ha (List.length_eq_zero.mp h0)
      omega
    have hL1 : a.length - 1 = (a.length - 2) + 1 := by omega
    have hstep := segInv_breakUpd a (a.length - 2)
      (segLoop a (a.length - 2)) (by omega) h2
      (segInv_loop a h2 (a.length - 2) (le_refl _))
    rw [← hL1] at hstep
    set st1 := breakUpd a (segLoop a (a.length - 2)) (a.length - 2) with hst1
    have hfin : segmentsOf a = st1.1 ++ [a.drop st1.2] := by
      unfold segmentsOf
      rw [if_neg h1, hL1]
      show (segLoop a ((a.length - 2) + 1)).1 = _
      rw [segLoop_succ]
      unfold segStep
      rw [if_pos (by omega : (a.length - 2) + 1 = a.length - 1)]
    rw [hfin]
    have hp_lt : st1.2 < a.length := by
      have := hstep.prev_le
      omega
    have hdrop_ne : a.drop st1.2 ≠ [] := by
      rw [Ne, List.drop_eq_nil_iff]
      omega
    refine ⟨?_, ?_, ?_, ?_⟩
    · rw [List.flatten_append, hstep.join_eq]
      simp [List.take_append_drop]
    · intro s hs
      rcases List.mem_append.mp hs with hs | hs
      · exact hstep.seg_ne s hs
      · rw [List.mem_singleton] at hs
        subst hs
        exact hdrop_ne
    · intro s hs
      rcases List.mem_append.mp hs with hs | hs
      · exact hstep.consec s hs
      · rw [List.mem_singleton] at hs
        subst hs
        rw [drop_eq_pySlice]
        exact chain'_pySlice a (le_refl _) (fun j hj hj1 =>
          hstep.open_run j hj (by omega))
    · refine chain'_noMerge_extend a st1.1 st1.2 _ hstep.maximal
        hstep.boundary ?_
      rw [List.head?_drop, List.getElem?_eq_getElem hp_lt,
        ← List.getD_eq_getElem _ 0 hp_lt]

/-- Claim C4: for a non-empty index sequence and `number_samples ≥ 1` draws,
`sample_permuted_segments` returns exactly `number_samples` sequences; the
code's `segments` list is precisely the decomposition of the input into
maximal contiguous runs; every output is the concatenation of those
segments in some drawn order (each segment internally unchanged) and is a
permutation (same multiset) of the input; and a length-1 input is returned
unchanged in every sample. -/
theorem sample_permuted_segments_ok (index_sequence : List ℕ)
    (ha : index_sequence ≠ []) (number_samples : ℕ)
    (hn : 1 ≤ number_samples) (perms : List (List ℕ))
    (hlen : perms.length = number_samples)
    (hperm : ∀ p ∈ perms,
      p.Perm (List.range (segmentsOf index_sequence).length)) :
    (sample_permuted_segments index_sequence perms).length =
      number_samples ∧
    isRunDecomp index_sequence (segmentsOf index_sequence) ∧
    (∀ out ∈ sample_permuted_segments index_sequence perms,
      (∃ p : List ℕ, p.Perm (List.range (segmentsOf index_sequence).length) ∧
        out = (p.map fun i =>
          (segmentsOf index_sequence).getD i []).flatten) ∧
      out.Perm index_sequence) ∧
    (index_sequence.length = 1 →
      ∀ out ∈ sample_permuted_segments index_sequence perms,
        out = index_sequence) := by
  have hdecomp := segmentsOf_runDecomp index_sequence ha
  refine ⟨?_, hdecomp, ?_, ?_⟩
  · unfold sample_permuted_segments
    rw [List.length_map, hlen]
  · intro out hout
    unfold sample_permuted_segments at hout
    rcases List.mem_map.mp hout with ⟨p, hp, hpe⟩
    subst hpe
    refine ⟨⟨p, hperm p hp, rfl⟩, ?_⟩
    have h1 : (p.map fun i => (segmentsOf index_sequence).getD i []).Perm
        ((List.range (segmentsOf index_sequence).length).map
          fun i => (segmentsOf index_sequence).getD i []) :=
      (hperm p hp).map _
    have h2 := h1.flatten
    rw [getD_map_range] at h2
    have h3 : (segmentsOf index_sequence).flatten = index_sequence :=
      hdecomp.1
    rw [h3] at h2
    exact h2
  · intro h1len out hout
    unfold sample_permuted_segments at hout
    rcases List.mem_map.mp hout with ⟨p, hp, hpe⟩
    subst hpe
    have hseg : segmentsOf index_sequence = [index_sequence] := by
      unfold segmentsOf
      rw [if_pos h1len]
    have hp' := hperm p hp
    rw [hseg, List.length_singleton,
      (by decide : List.range 1 = [0])] at hp'
    have hp0 : p = [0] := List.perm_singleton.mp hp'
    subst hp0
    rw [hseg]
    simp

/-- Witness for C4 at the docstring's own example input. -/
theorem sample_permuted_segments_ok_witness :
    (sample_permuted_segments [1, 2, 6, 10, 11, 12] [[2, 0, 1]]).length =
      1 ∧
    isRunDecomp [1, 2, 6, 10, 11, 12]
      (segmentsOf [1, 2, 6, 10, 11, 12]) ∧
    (∀ out ∈ sample_permuted_segments [1, 2, 6, 10, 11, 12] [[2, 0, 1]],
      (∃ p : List ℕ, p.Perm (List.range
          (segmentsOf [1, 2, 6, 10, 11, 12]).length) ∧
        out = (p.map fun i =>
          (segmentsOf [1, 2, 6, 10, 11, 12]).getD i []).flatten) ∧
      out.Perm [1, 2, 6, 10, 11, 12]) ∧
    (([1, 2, 6, 10, 11, 12] : List ℕ).length = 1 →
      ∀ out ∈ sample_permuted_segments [1, 2, 6, 10, 11, 12] [[2, 0, 1]],
        out = [1, 2, 6, 10, 11, 12]) :=
  sample_permuted_segments_ok [1, 2, 6, 10, 11, 12] (by decide) 1
    (by decide) [[2, 0, 1]] rfl (by decide)
